import Mathlib

/-!
Verification of the linked binary search tree implemented in `linkedbst.py`
(class `LinkedBST`, building on `linkedstack.py` for the pre-order walk).

The tree stores comparable items; we instantiate them with `Int`.  A node is
`BSTNode(data, left, right)`; an absent child is Python `None`, modelled by
the `leaf` constructor.  The collection object carries the root together with
the cached `_size` counter inherited from `AbstractCollection`, modelled by
the structure `LinkedBST` below.

Python truthiness matters in this code (`bool(self.find(item))`,
`if not item_removed`, `if answ:`): for an `Option Int` result it is falsy
exactly when the value is `none` or `some 0`.  We model it by `pyTruthy`.
Exceptions (`KeyError` in `remove`, the `AttributeError` that `num_vert`
hits on an empty tree) are modelled with `Except` / `Option` results.
-/

namespace BinSearchTree

/-- Binary tree of `Int` items; `leaf` is Python `None`, `node l d r` is a
`BSTNode` with data `d`, left child `l` and right child `r`. -/
inductive BTree where
  | leaf : BTree
  | node : BTree → Int → BTree → BTree
deriving DecidableEq

open BTree

/-- Number of nodes reachable from a root (the structural node count). -/
def countNodes : BTree → Nat
  | .leaf => 0
  | .node l _ r => countNodes l + countNodes r + 1

/-- Data stored at the root node, if any. -/
def rootData : BTree → Option Int
  | .leaf => none
  | .node _ d _ => some d

/-- The `LinkedBST` object: `_root` plus the `_size` counter maintained by
`AbstractCollection` (`add` does `self._size += 1`, `remove` does
`self._size -= 1`, `clear` resets it to 0). -/
structure LinkedBST where
  root : BTree
  size : Int
deriving DecidableEq

/-- A freshly constructed empty `LinkedBST()`. -/
def emptyBST : LinkedBST := ⟨.leaf, 0⟩

/-- `AbstractCollection.isEmpty`: true when the cached size is 0. -/
def LinkedBST.isEmpty (t : LinkedBST) : Bool := t.size == 0

/-- Python truthiness of `find`-style results: `None` and `0` are falsy. -/
def pyTruthy : Option Int → Bool
  | none => false
  | some x => x != 0

/-- Inner `recurse` of `LinkedBST.inorder`: left, node, right. -/
def inorderRec : BTree → List Int
  | .leaf => []
  | .node l d r => inorderRec l ++ d :: inorderRec r

/-- `LinkedBST.inorder`: an in-order list of the items. -/
def LinkedBST.inorder (t : LinkedBST) : List Int := inorderRec t.root

/-- Inner `recurse` of `LinkedBST.find`: equal data is returned, smaller
items are searched on the left, the rest on the right. -/
def findRec : BTree → Int → Option Int
  | .leaf, _ => none
  | .node l d r, item =>
    if item = d then some d
    else if item < d then findRec l item
    else findRec r item

/-- `LinkedBST.find(item)`: the matched stored item, or `None`. -/
def LinkedBST.find (t : LinkedBST) (item : Int) : Option Int :=
  findRec t.root item

/-- `LinkedBST.__contains__`: literally `bool(self.find(item))`, so a found
but falsy item (the integer 0) yields `false`. -/
def LinkedBST.contains (t : LinkedBST) (item : Int) : Bool :=
  pyTruthy (t.find item)

/-- Inner `recurse` of `LinkedBST.add`: strictly smaller items go left,
everything else (ties included) goes right; a missing child slot is filled
with a fresh node, which is what the `leaf` case expresses. -/
def addRecurse : BTree → Int → BTree
  | .leaf, item => .node .leaf item .leaf
  | .node l d r, item =>
    if item < d then .node (addRecurse l item) d r
    else .node l d (addRecurse r item)

/-- `LinkedBST.add(item)`: root slot when `isEmpty()`, otherwise the
recursive descent; `_size` is incremented unconditionally. -/
def LinkedBST.add (t : LinkedBST) (item : Int) : LinkedBST :=
  if t.isEmpty then ⟨.node .leaf item .leaf, t.size + 1⟩
  else ⟨addRecurse t.root item, t.size + 1⟩

/-- Helper `height1` of `LinkedBST.height`: `0` on `None`, otherwise
`max(height1(left), height1(right)) + 1`. -/
def height1 : BTree → Nat
  | .leaf => 0
  | .node l _ r => max (height1 l) (height1 r) + 1

/-- `LinkedBST.height()`: `height1(self._root) - 1`, so the empty tree has
height `-1` and a single node has height `0`. -/
def LinkedBST.height (t : LinkedBST) : Int := (height1 t.root : Int) - 1

/-- Helper `num_nasch` of `LinkedBST.num_vert`: counts all descendants of a
(non-`None`) node.  The source only ever calls it on an existing node; the
`leaf` equation is never reached from `num_vert` below. -/
def numNasch : BTree → Nat
  | .leaf => 0
  | .node l _ r =>
    (match l with
     | .leaf => 0
     | .node a b c => 1 + numNasch (.node a b c)) +
    (match r with
     | .leaf => 0
     | .node a b c => 1 + numNasch (.node a b c))

/-- `LinkedBST.num_vert()`: `num_nasch(self._root) + 1`.  On an empty tree
`num_nasch(None)` dereferences `None.left` and raises `AttributeError`,
modelled as `none`. -/
def LinkedBST.num_vert (t : LinkedBST) : Option Nat :=
  match t.root with
  | .leaf => none
  | .node l d r => some (numNasch (.node l d r) + 1)

/-- `LinkedBST.is_balanced()`: `height() < 2 * log(num_vert() + 1) - 1` with
`math.log` the natural logarithm on floats, modelled over the reals; the
call raises (is `none`) exactly when `num_vert` raises. -/
def LinkedBST.is_balanced (t : LinkedBST) : Option Prop :=
  (t.num_vert).map
    (fun n => (t.height : ℝ) < 2 * Real.log ((n : ℝ) + 1) - 1)

/-- `LinkedBST.range_find(low, high)`: filter the in-order list by
`low <= x <= high`. -/
def LinkedBST.range_find (t : LinkedBST) (low high : Int) : List Int :=
  (t.inorder).filter (fun x => low ≤ x && x ≤ high)

/-- Inner `recurs` of `LinkedBST.successor`: on `node.data <= item` look in
the right subtree and propagate only a truthy answer; otherwise look left
and fall back to the node's own data.  `if answ:` is Python truthiness. -/
def succRecurs : BTree → Int → Option Int
  | .leaf, _ => none
  | .node l d r, item =>
    if d ≤ item then
      let answ := succRecurs r item
      if pyTruthy answ then answ else none
    else
      let answ := succRecurs l item
      if pyTruthy answ then answ else some d

/-- `LinkedBST.successor(item)`. -/
def LinkedBST.successor (t : LinkedBST) (item : Int) : Option Int :=
  succRecurs t.root item

/-- Inner `recurs` of `LinkedBST.predecessor`: mirror image of
`succRecurs`. -/
def predRecurs : BTree → Int → Option Int
  | .leaf, _ => none
  | .node l d r, item =>
    if d ≥ item then
      let answ := predRecurs l item
      if pyTruthy answ then answ else none
    else
      let answ := predRecurs r item
      if pyTruthy answ then answ else some d

/-- `LinkedBST.predecessor(item)`. -/
def LinkedBST.predecessor (t : LinkedBST) (item : Int) : Option Int :=
  predRecurs t.root item

/-- The walk inside `lift_max_in_left_subtree_to_top`: follow `right` links
from `top.left`, return the maximum datum found, together with the left
subtree with that maximum node unlinked (its left child takes its place).
The source only calls it when `top` has a left child, so the `leaf` case is
never reached. -/
def liftMaxPop : BTree → Int × BTree
  | .leaf => (0, .leaf)
  | .node l d .leaf => (d, l)
  | .node l d (.node rl rd rr) =>
    let p := liftMaxPop (.node rl rd rr)
    (p.1, .node l d p.2)

/-- The search loop of `LinkedBST.remove` combined with the relinking it
performs: locate the first node on the comparison path whose data equals
`item` (`none` if the loop exhausts) and return its datum `item_removed`
together with the tree after the removal surgery: with two children the
maximum of the left subtree is lifted to the top, otherwise the sole child
(or `None`) is spliced into the parent's slot. -/
def removeSearch : BTree → Int → Option (Int × BTree)
  | .leaf, _ => none
  | .node l d r, item =>
    if d = item then
      some (d,
        if l ≠ .leaf ∧ r ≠ .leaf then
          .node (liftMaxPop l).2 (liftMaxPop l).1 r
        else if l = .leaf then r else l)
    else if d > item then
      (removeSearch l item).map (fun p => (p.1, .node p.2 d r))
    else
      (removeSearch r item).map (fun p => (p.1, .node l d p.2))

/-- `LinkedBST.remove(item)`: raise `KeyError` when `item in self` fails
(Python truthiness of `bool(self.find(item))`); return early with no change
when `isEmpty()` or when `item_removed` is falsy; otherwise relink,
decrement `_size`, and reset the root to `None` when the collection became
empty.  The returned value pairs the new state with `item_removed`. -/
def LinkedBST.remove (t : LinkedBST) (item : Int) :
    Except String (LinkedBST × Option Int) :=
  if !t.contains item then .error "Item not in tree."
  else if t.isEmpty then .ok (t, none)
  else
    match removeSearch t.root item with
    | none => .ok (t, none)
    | some (removed, newRoot) =>
      if removed = 0 then .ok (t, none)
      else
        let size := t.size - 1
        .ok (⟨if size = 0 then .leaf else newRoot, size⟩, some removed)

/-- The loop of `LinkedBST.__iter__`: pop a node, yield its data, push the
right child and then the left child (when present), so the left child is
popped first.  The stack (a `LinkedStack`) is modelled as a list with its
top in front; only existing nodes are ever pushed, so the `leaf` head case
is never reached. -/
def iterLoop : List BTree → List Int
  | [] => []
  | .leaf :: rest => iterLoop rest
  | .node l d r :: rest =>
    let s1 := if r = .leaf then rest else r :: rest
    let s2 := if l = .leaf then s1 else l :: s1
    d :: iterLoop s2
termination_by stack => 2 * (stack.map countNodes).sum + stack.length
decreasing_by
  · simp [countNodes]
  · split <;> split <;> simp_all [countNodes] <;> omega

/-- `LinkedBST.__iter__`: nothing on an empty collection, otherwise the
stack loop seeded with the root. -/
def LinkedBST.iter (t : LinkedBST) : List Int :=
  if t.isEmpty then [] else iterLoop [t.root]

/-- The root-left-right pre-order sequence of a tree, used to describe the
order in which `__iter__` yields items. -/
def preorder : BTree → List Int
  | .leaf => []
  | .node l d r => d :: (preorder l ++ preorder r)

/-- Inner `recurs` of `LinkedBST.rebalance`: on a non-empty slice, add the
middle element to the tree, then recurse on the left half-slice and then on
the right half-slice. -/
def recurs : List Int → LinkedBST → LinkedBST
  | [], tree => tree
  | x :: xs, tree =>
    let m := (x :: xs).length / 2
    let t1 := tree.add ((x :: xs).get ⟨m, Nat.div_lt_self (by simp) (by decide)⟩)
    let t2 := recurs ((x :: xs).take m) t1
    recurs ((x :: xs).drop (m + 1)) t2
termination_by lyst _ => lyst.length
decreasing_by
  · simp only [List.length_take, List.length_cons]
    omega
  · simp only [List.length_drop, List.length_cons]
    omega

/-- `LinkedBST.rebalance()`: capture `inorder()`, `clear()` the tree
(root `None`, size 0) and rebuild with `recurs`; the mutated tree itself is
the result. -/
def LinkedBST.rebalance (t : LinkedBST) : LinkedBST :=
  recurs t.inorder ⟨.leaf, 0⟩

/-- The order in which `recurs` feeds items to `add`: middle element first,
then the insertion sequence of the left half-slice, then that of the right
half-slice. -/
def insSeq : List Int → List Int
  | [] => []
  | x :: xs =>
    let m := (x :: xs).length / 2
    (x :: xs).get ⟨m, Nat.div_lt_self (by simp) (by decide)⟩ ::
      (insSeq ((x :: xs).take m) ++ insSeq ((x :: xs).drop (m + 1)))
termination_by lyst => lyst.length
decreasing_by
  · simp only [List.length_take, List.length_cons]
    omega
  · simp only [List.length_drop, List.length_cons]
    omega

/-- One mutating call of the public interface. -/
inductive Op where
  | add (x : Int)
  | remove (x : Int)
  | clear
deriving DecidableEq

/-- Apply one call to the collection.  A `remove` that raises `KeyError`
does so before any mutation, so the state is unchanged. -/
def applyOp (t : LinkedBST) : Op → LinkedBST
  | .add x => t.add x
  | .remove x =>
    match t.remove x with
    | .ok (t', _) => t'
    | .error _ => t
  | .clear => ⟨.leaf, 0⟩

/-- Run a sequence of calls starting from a fresh empty collection. -/
def runOps (ops : List Op) : LinkedBST := ops.foldl applyOp emptyBST

/-- The binary-search-tree invariant maintained by `add`: in every node all
items of the left subtree are strictly smaller than the node's data, and
all items of the right subtree are greater or equal (ties go right). -/
def IsBST : BTree → Prop
  | .leaf => True
  | .node l d r =>
    (∀ x ∈ inorderRec l, x < d) ∧ (∀ x ∈ inorderRec r, d ≤ x) ∧
      IsBST l ∧ IsBST r

instance IsBST.dec : (t : BTree) → Decidable (IsBST t)
  | .leaf => .isTrue trivial
  | .node l d r =>
    haveI : Decidable (IsBST l) := IsBST.dec l
    haveI : Decidable (IsBST r) := IsBST.dec r
    decidable_of_iff
      ((∀ x ∈ inorderRec l, x < d) ∧ (∀ x ∈ inorderRec r, d ≤ x) ∧
        IsBST l ∧ IsBST r)
      (by simp [IsBST])

/-- The tree left after `remove(5)` in the scenario of claim C2. -/
def scenarioAfter : BTree :=
  .node (.node (.node .leaf 1 .leaf) 3 .leaf) 4
    (.node (.node .leaf 7 .leaf) 8 (.node .leaf 9 .leaf))

/-- C2: inserting `[5, 3, 8, 1, 4, 7, 9]` in order into an empty tree gives
`inorder() = [1,3,4,5,7,8,9]` and `height() = 2`; `remove(5)` then lifts the
maximum 4 of the left subtree into the root, yielding
`inorder() = [1,3,4,7,8,9]` and size 6. -/
theorem scenario_insert_then_remove_root :
    ([5, 3, 8, 1, 4, 7, 9].foldl LinkedBST.add emptyBST).inorder =
      [1, 3, 4, 5, 7, 8, 9] ∧
    ([5, 3, 8, 1, 4, 7, 9].foldl LinkedBST.add emptyBST).height = 2 ∧
    ([5, 3, 8, 1, 4, 7, 9].foldl LinkedBST.add emptyBST).remove 5 =
      .ok (⟨scenarioAfter, 6⟩, some 5) ∧
    rootData scenarioAfter = some 4 ∧
    inorderRec scenarioAfter = [1, 3, 4, 7, 8, 9] := by
  refine ⟨rfl, rfl, rfl, rfl, rfl⟩

/-- C4 (code bug): `find(0)` succeeds on a tree storing 0, yet
`__contains__` — implemented as `bool(self.find(item))` — reports `False`,
because the found item 0 is falsy in Python. -/
theorem contains_zero_bug :
    (⟨.node .leaf 0 .leaf, 1⟩ : LinkedBST).find 0 = some 0 ∧
    (⟨.node .leaf 0 .leaf, 1⟩ : LinkedBST).contains 0 = false :=
  ⟨rfl, rfl⟩

/-- C5 (code bug): on a tree whose only stored item is 0, `remove(0)`
raises `KeyError` even though 0 is present, because the membership
pre-check `item in self` uses `bool(self.find(item))` and 0 is falsy. -/
theorem remove_zero_bug :
    (⟨.node .leaf 0 .leaf, 1⟩ : LinkedBST).inorder = [0] ∧
    (⟨.node .leaf 0 .leaf, 1⟩ : LinkedBST).remove 0 =
      .error "Item not in tree." :=
  ⟨rfl, rfl⟩

/-- C6 (code bug): in the BST storing `-1` and `0`, the items `-1 < 0` are
adjacent, so the claim demands `successor(-1) = 0`; the code propagates
candidate answers with `if answ:`, drops the falsy answer 0, and returns
`None`. -/
theorem successor_zero_bug :
    (⟨.node .leaf (-1) (.node .leaf 0 .leaf), 2⟩ : LinkedBST).inorder =
      [-1, 0] ∧
    IsBST (.node .leaf (-1) (.node .leaf 0 .leaf)) ∧
    (⟨.node .leaf (-1) (.node .leaf 0 .leaf), 2⟩ : LinkedBST).successor (-1) =
      none := by
  decide

/-- C8 (counterexample): `is_balanced()` is not total — on the empty tree it
calls `num_vert()`, whose helper dereferences `None.left` and raises
`AttributeError` (modelled as `none`), instead of returning a boolean. -/
theorem is_balanced_empty_raises :
    emptyBST.is_balanced = none ∧ emptyBST.num_vert = none :=
  ⟨rfl, rfl⟩

/-- The cached `_size` agrees with the structural node count. -/
def Synced (t : LinkedBST) : Prop := t.size = (countNodes t.root : Int)

theorem countNodes_eq_zero {t : BTree} : countNodes t = 0 ↔ t = .leaf := by
  cases t <;> simp [countNodes]

theorem inorderRec_length (t : BTree) :
    (inorderRec t).length = countNodes t := by
  induction t with
  | leaf => rfl
  | node l d r ihl ihr => simp [inorderRec, countNodes, ihl, ihr]; omega

theorem countNodes_addRecurse (t : BTree) (x : Int) :
    countNodes (addRecurse t x) = countNodes t + 1 := by
  induction t with
  | leaf => rfl
  | node l d r ihl ihr =>
    by_cases h : x < d <;> simp [addRecurse, h, countNodes, ihl, ihr] <;> omega

theorem inorder_addRecurse_perm (t : BTree) (x : Int) :
    (inorderRec (addRecurse t x)).Perm (x :: inorderRec t) := by
  induction t with
  | leaf => simp [addRecurse, inorderRec]
  | node l d r ihl ihr =>
    by_cases h : x < d
    · simp only [addRecurse, if_pos h, inorderRec]
      simpa using ihl.append_right (d :: inorderRec r)
    · simp only [addRecurse, if_neg h, inorderRec]
      refine ((ihr.cons d).append_left (inorderRec l)).trans ?_
      refine (((List.Perm.swap x d (inorderRec r)).append_left
        (inorderRec l)).trans ?_)
      exact List.perm_middle

theorem mem_inorder_addRecurse {t : BTree} {x y : Int} :
    y ∈ inorderRec (addRecurse t x) ↔ y = x ∨ y ∈ inorderRec t := by
  simpa using (inorder_addRecurse_perm t x).mem_iff

theorem IsBST_addRecurse {t : BTree} (x : Int) (h : IsBST t) :
    IsBST (addRecurse t x) := by
  induction t with
  | leaf => simp [addRecurse, IsBST, inorderRec]
  | node l d r ihl ihr =>
    obtain ⟨hl, hr, bl, br⟩ := h
    by_cases hx : x < d
    · simp only [addRecurse, if_pos hx]
      refine ⟨?_, hr, ihl bl, br⟩
      intro y hy
      rcases mem_inorder_addRecurse.1 hy with rfl | hy
      · exact hx
      · exact hl y hy
    · simp only [addRecurse, if_neg hx]
      refine ⟨hl, ?_, bl, ihr br⟩
      intro y hy
      rcases mem_inorder_addRecurse.1 hy with rfl | hy
      · omega
      · exact hr y hy

theorem sorted_inorder {t : BTree} (h : IsBST t) :
    (inorderRec t).Sorted (· ≤ ·) := by
  induction t with
  | leaf => simp [inorderRec]
  | node l d r ihl ihr =>
    obtain ⟨hl, hr, bl, br⟩ := h
    rw [inorderRec]
    refine List.pairwise_append.2
      ⟨ihl bl, List.pairwise_cons.2 ⟨hr, ihr br⟩, ?_⟩
    intro a ha b hb
    rcases List.mem_cons.1 hb with rfl | hb
    · exact le_of_lt (hl a ha)
    · exact le_of_lt (lt_of_lt_of_le (hl a ha) (hr b hb))

theorem add_synced {t : LinkedBST} (x : Int) (h : Synced t) :
    Synced (t.add x) ∧ (t.add x).root = addRecurse t.root x := by
  obtain ⟨root, size⟩ := t
  unfold Synced at h ⊢
  simp only at h
  unfold LinkedBST.add LinkedBST.isEmpty
  by_cases h0 : size = 0
  · subst h0
    have hc : countNodes root = 0 := by omega
    have hroot : root = .leaf := countNodes_eq_zero.1 hc
    subst hroot
    simp [countNodes, addRecurse]
  · have hb : (size == 0) = false := by simpa using h0
    simp only [hb, Bool.false_eq_true, if_false]
    refine ⟨?_, trivial⟩
    simp only [countNodes_addRecurse]
    push_cast
    omega

theorem foldl_add_synced (xs : List Int) (t : LinkedBST) (h : Synced t) :
    Synced (xs.foldl LinkedBST.add t) ∧
    (xs.foldl LinkedBST.add t).root = xs.foldl addRecurse t.root := by
  induction xs generalizing t with
  | nil => exact ⟨h, rfl⟩
  | cons x xs ih =>
    obtain ⟨h1, h2⟩ := add_synced x h
    obtain ⟨h3, h4⟩ := ih (t.add x) h1
    exact ⟨h3, by simp [h4, h2]⟩

theorem IsBST_foldl_addRecurse (xs : List Int) {t : BTree} (h : IsBST t) :
    IsBST (xs.foldl addRecurse t) := by
  induction xs generalizing t with
  | nil => exact h
  | cons x xs ih => exact ih (IsBST_addRecurse x h)

/-- C1: after any sequence of `add` calls starting from an empty tree,
`inorder()` is non-decreasing (ascending order, duplicates adjacent). -/
theorem inorder_sorted_after_adds (xs : List Int) :
    ((xs.foldl LinkedBST.add emptyBST).inorder).Sorted (· ≤ ·) := by
  obtain ⟨-, hroot⟩ := foldl_add_synced xs emptyBST rfl
  rw [LinkedBST.inorder, hroot]
  exact sorted_inorder (IsBST_foldl_addRecurse xs trivial)

theorem liftMaxPop_count {t : BTree} (h : t ≠ .leaf) :
    countNodes (liftMaxPop t).2 + 1 = countNodes t := by
  induction t with
  | leaf => exact absurd rfl h
  | node l d r ihl ihr =>
    cases r with
    | leaf => simp [liftMaxPop, countNodes]
    | node rl rd rr =>
      have := ihr (by simp)
      simp only [liftMaxPop, countNodes] at this ⊢
      omega

theorem removeSearch_count {t t' : BTree} {x rm : Int}
    (h : removeSearch t x = some (rm, t')) :
    countNodes t' + 1 = countNodes t := by
  induction t generalizing t' rm with
  | leaf => simp [removeSearch] at h
  | node l d r ihl ihr =>
    rw [removeSearch] at h
    by_cases hd : d = x
    · rw [if_pos hd] at h
      obtain ⟨-, rfl⟩ : rm = d ∧ _ = t' := by
        simpa [eq_comm] using h
      by_cases h2 : l ≠ .leaf ∧ r ≠ .leaf
      · rw [if_pos h2]
        have := liftMaxPop_count h2.1
        simp only [countNodes] at *
        omega
      · rw [if_neg h2]
        by_cases hl : l = .leaf
        · simp [hl, countNodes]
        · have hr : r = .leaf := by tauto
          simp [hl, hr, countNodes]
    · rw [if_neg hd] at h
      by_cases hgt : d > x
      · rw [if_pos hgt] at h
        cases hrec : removeSearch l x with
        | none => simp [hrec] at h
        | some p =>
          obtain ⟨p1, p2⟩ := p
          simp only [hrec, Option.map_some] at h
          obtain ⟨-, rfl⟩ : rm = p1 ∧ BTree.node p2 d r = t' := by
            simpa [eq_comm] using h
          have := ihl hrec
          simp only [countNodes] at *
          omega
      · rw [if_neg hgt] at h
        cases hrec : removeSearch r x with
        | none => simp [hrec] at h
        | some p =>
          obtain ⟨p1, p2⟩ := p
          simp only [hrec, Option.map_some] at h
          obtain ⟨-, rfl⟩ : rm = p1 ∧ BTree.node l d p2 = t' := by
            simpa [eq_comm] using h
          have := ihr hrec
          simp only [countNodes] at *
          omega

theorem remove_synced {t t' : LinkedBST} {x : Int} {v : Option Int}
    (h : Synced t) (hr : t.remove x = .ok (t', v)) : Synced t' := by
  unfold LinkedBST.remove at hr
  by_cases hc : t.contains x
  · rw [if_neg (by simp [hc])] at hr
    by_cases he : t.isEmpty
    · rw [if_pos he] at hr
      simp only [Except.ok.injEq, Prod.mk.injEq] at hr
      obtain ⟨rfl, -⟩ := hr
      exact h
    · rw [if_neg he] at hr
      cases hs : removeSearch t.root x with
      | none =>
        rw [hs] at hr
        simp only [Except.ok.injEq, Prod.mk.injEq] at hr
        obtain ⟨rfl, -⟩ := hr
        exact h
      | some p =>
        obtain ⟨rm, newRoot⟩ := p
        rw [hs] at hr
        simp only at hr
        by_cases h0 : rm = 0
        · rw [if_pos h0] at hr
          simp only [Except.ok.injEq, Prod.mk.injEq] at hr
          obtain ⟨rfl, -⟩ := hr
          exact h
        · rw [if_neg h0] at hr
          simp only [Except.ok.injEq, Prod.mk.injEq] at hr
          obtain ⟨rfl, -⟩ := hr
          have hcount := removeSearch_count hs
          have hroot : t.root ≠ .leaf := by
            intro hleaf
            rw [hleaf] at hs
            simp [removeSearch] at hs
          have hpos : 1 ≤ countNodes t.root := by
            rcases Nat.eq_zero_or_pos (countNodes t.root) with h' | h'
            · exact absurd (countNodes_eq_zero.1 h') hroot
            · exact h'
          unfold Synced at h ⊢
          by_cases hz : t.size - 1 = 0
          · simp only [hz, if_pos rfl, countNodes]
            omega
          · rw [if_neg hz]
            simp only
            omega
  · rw [if_pos (by simp [hc])] at hr
    cases hr

theorem numNasch_node (l : BTree) (d : Int) (r : BTree) :
    numNasch (.node l d r) =
      (if l = .leaf then 0 else 1 + numNasch l) +
      (if r = .leaf then 0 else 1 + numNasch r) := by
  cases l <;> cases r <;> simp [numNasch]

theorem numNasch_count {t : BTree} (h : t ≠ .leaf) :
    numNasch t + 1 = countNodes t := by
  induction t with
  | leaf => exact absurd rfl h
  | node l d r ihl ihr =>
    have Hl : (if l = .leaf then 0 else 1 + numNasch l) = countNodes l := by
      by_cases hl : l = .leaf
      · subst hl
        simp [countNodes]
      · rw [if_neg hl]
        have := ihl hl
        omega
    have Hr : (if r = .leaf then 0 else 1 + numNasch r) = countNodes r := by
      by_cases hr2 : r = .leaf
      · subst hr2
        simp [countNodes]
      · rw [if_neg hr2]
        have := ihr hr2
        omega
    rw [numNasch_node]
    simp only [countNodes]
    omega

theorem num_vert_eq {t : LinkedBST} :
    t.num_vert = if t.root = .leaf then none
      else some (countNodes t.root) := by
  cases ht : t.root with
  | leaf => simp [LinkedBST.num_vert, ht]
  | node l d r =>
    have hne : (BTree.node l d r) ≠ .leaf := by simp
    simp only [LinkedBST.num_vert, ht, if_neg hne]
    rw [← numNasch_count hne]

theorem applyOp_synced {t : LinkedBST} (op : Op) (h : Synced t) :
    Synced (applyOp t op) := by
  cases op with
  | add x => exact (add_synced x h).1
  | remove x =>
    rw [applyOp]
    cases hr : t.remove x with
    | ok p =>
      obtain ⟨t', v⟩ := p
      exact remove_synced h hr
    | error e => exact h
  | clear => rfl

theorem runOps_synced (ops : List Op) : Synced (runOps ops) := by
  rw [runOps]
  induction ops using List.reverseRecOn with
  | nil => rfl
  | append_singleton ops op ih =>
    rw [List.foldl_append, List.foldl_cons, List.foldl_nil]
    exact applyOp_synced op ih

/-- C3: after any sequence of `add` / `remove` / `clear` calls from an empty
tree, the cached `_size` equals the structural count of nodes reachable from
the root, which is exactly what `num_vert()` recomputes (on a non-empty
tree; on the empty tree `num_vert` raises). -/
theorem size_matches_structure (ops : List Op) :
    (runOps ops).size = (countNodes (runOps ops).root : Int) ∧
    (runOps ops).num_vert =
      (if (runOps ops).root = .leaf then none
       else some (countNodes (runOps ops).root)) :=
  ⟨runOps_synced ops, num_vert_eq⟩

/-- C8 (amended): `find`, `height`, `successor`, `predecessor` and
`range_find` are total and return `none` / `-1` / `[]` on the empty tree;
`is_balanced` (through `num_vert`) raises on the empty tree and only on it. -/
theorem queries_total_amended (t : LinkedBST) (x low high s : Int) :
    (⟨.leaf, s⟩ : LinkedBST).find x = none ∧
    (⟨.leaf, s⟩ : LinkedBST).height = -1 ∧
    (⟨.leaf, s⟩ : LinkedBST).successor x = none ∧
    (⟨.leaf, s⟩ : LinkedBST).predecessor x = none ∧
    (⟨.leaf, s⟩ : LinkedBST).range_find low high = [] ∧
    (t.is_balanced.isSome ↔ t.root ≠ .leaf) ∧
    (t.num_vert.isSome ↔ t.root ≠ .leaf) := by
  have key : t.num_vert.isSome ↔ t.root ≠ .leaf := by
    rw [num_vert_eq]
    by_cases h : t.root = .leaf <;> simp [h]
  refine ⟨rfl, rfl, rfl, rfl, rfl, ?_, key⟩
  rw [LinkedBST.is_balanced, ← key]
  cases t.num_vert <;> simp

theorem iterLoop_cons (t : BTree) : ∀ rest : List BTree,
    iterLoop (t :: rest) = preorder t ++ iterLoop rest := by
  induction t with
  | leaf =>
    intro rest
    simp [iterLoop, preorder]
  | node l d r ihl ihr =>
    intro rest
    simp only [iterLoop, preorder, List.cons_append]
    by_cases hl : l = .leaf
    · by_cases hr2 : r = .leaf
      · subst hl
        subst hr2
        simp [preorder]
      · subst hl
        simp [preorder, if_neg hr2, ihr]
    · by_cases hr2 : r = .leaf
      · subst hr2
        simp [preorder, if_neg hl, ihl]
      · simp [if_neg hl, if_neg hr2, ihl, ihr]

theorem preorder_perm_inorder (t : BTree) :
    (preorder t).Perm (inorderRec t) := by
  induction t with
  | leaf => simp [preorder, inorderRec]
  | node l d r ihl ihr =>
    simp only [preorder, inorderRec]
    exact ((ihl.append ihr).cons d).trans List.perm_middle.symm

/-- A small populated collection used as a concrete iteration example. -/
def iterDemo : LinkedBST :=
  ⟨.node (.node .leaf 1 .leaf) 2 (.node .leaf 3 .leaf), 3⟩

/-- C9 (counterexample): on the tree with root 2, left child 1 and right
child 3, `__iter__` yields `[2, 1, 3]` — root, then the left subtree, then
the right subtree — not root followed by the right subtree's items and then
the left subtree's items, as that would be `[2, 3, 1]`. -/
theorem iter_not_root_right_left :
    LinkedBST.iter iterDemo = [2, 1, 3] ∧
    LinkedBST.iter iterDemo ≠
      2 :: (inorderRec (.node .leaf 3 .leaf) ++
        inorderRec (.node .leaf 1 .leaf)) := by
  have hiter : LinkedBST.iter iterDemo = [2, 1, 3] := by
    rw [LinkedBST.iter, if_neg (by decide), iterLoop_cons]
    simp [iterLoop, preorder, iterDemo]
  exact ⟨hiter, by rw [hiter]; decide⟩

/-- C9 (amended): for every non-empty tree, the default iteration
(`__iter__`, the stack-based pre-order walk) yields the root's item first,
then all items of the left subtree, then all items of the right subtree. -/
theorem iter_root_left_right (l r : BTree) (d s : Int) (h : s ≠ 0) :
    LinkedBST.iter ⟨.node l d r, s⟩ = d :: (preorder l ++ preorder r) := by
  rw [LinkedBST.iter, if_neg (by simp [LinkedBST.isEmpty, h]), iterLoop_cons]
  simp [iterLoop, preorder]

theorem iter_root_left_right_witness :
    (3 : Int) ≠ 0 ∧
    LinkedBST.iter ⟨.node (.node .leaf 1 .leaf) 2 (.node .leaf 3 .leaf), 3⟩ =
      2 :: (preorder (.node .leaf 1 .leaf) ++ preorder (.node .leaf 3 .leaf)) :=
  ⟨by decide, iter_root_left_right _ _ _ _ (by decide)⟩

/-- C10: on every reachable collection (cached size in sync with the
structure), the default pre-order iteration is a permutation of `inorder()`,
and both sequences have exactly one entry per stored node. -/
theorem iter_perm_inorder (t : LinkedBST) (h : Synced t) :
    (t.iter).Perm t.inorder ∧ t.iter.length = countNodes t.root ∧
    t.inorder.length = countNodes t.root := by
  have hperm : (t.iter).Perm t.inorder := by
    rw [LinkedBST.iter, LinkedBST.inorder]
    by_cases he : t.isEmpty
    · rw [if_pos he]
      have hz : t.size = 0 := by
        simpa [LinkedBST.isEmpty] using he
      have hleaf : t.root = .leaf := by
        refine countNodes_eq_zero.1 ?_
        unfold Synced at h
        omega
      rw [hleaf]
      simp [inorderRec]
    · rw [if_neg he, iterLoop_cons]
      simp only [iterLoop, List.append_nil]
      exact preorder_perm_inorder t.root
  refine ⟨hperm, ?_, inorderRec_length t.root⟩
  rw [LinkedBST.inorder] at hperm
  rw [hperm.length_eq]
  exact inorderRec_length t.root

theorem iter_perm_inorder_witness :
    Synced iterDemo ∧
    ((iterDemo.iter).Perm iterDemo.inorder ∧
      iterDemo.iter.length = countNodes iterDemo.root ∧
      iterDemo.inorder.length = countNodes iterDemo.root) :=
  ⟨rfl, iter_perm_inorder iterDemo rfl⟩

theorem recursFoldAux : ∀ (n : Nat) (l : List Int), l.length ≤ n →
    ∀ t : LinkedBST, recurs l t = (insSeq l).foldl LinkedBST.add t := by
  intro n
  induction n with
  | zero =>
    intro l hl t
    have hnil : l = [] := List.length_eq_zero.1 (by omega)
    subst hnil
    simp [recurs, insSeq]
  | succ n ih =>
    intro l hl t
    cases l with
    | nil => simp [recurs, insSeq]
    | cons x xs =>
      simp only [recurs, insSeq, List.foldl_cons, List.foldl_append]
      rw [ih ((x :: xs).take ((x :: xs).length / 2))
        (by simp only [List.length_take, List.length_cons] at *; omega)]
      rw [ih ((x :: xs).drop ((x :: xs).length / 2 + 1))
        (by simp only [List.length_drop, List.length_cons] at *; omega)]

theorem recurs_eq_foldl (l : List Int) (t : LinkedBST) :
    recurs l t = (insSeq l).foldl LinkedBST.add t :=
  recursFoldAux l.length l le_rfl t

theorem insSeqPermAux : ∀ (n : Nat) (l : List Int), l.length ≤ n →
    (insSeq l).Perm l := by
  intro n
  induction n with
  | zero =>
    intro l hl
    have hnil : l = [] := List.length_eq_zero.1 (by omega)
    subst hnil
    simp [insSeq]
  | succ n ih =>
    intro l hl
    cases l with
    | nil => simp [insSeq]
    | cons x xs =>
      simp only [insSeq]
      have hm : (x :: xs).length / 2 < (x :: xs).length :=
        Nat.div_lt_self (by simp) (by decide)
      have p1 := ih ((x :: xs).take ((x :: xs).length / 2))
        (by simp only [List.length_take, List.length_cons] at *; omega)
      have p2 := ih ((x :: xs).drop ((x :: xs).length / 2 + 1))
        (by simp only [List.length_drop, List.length_cons] at *; omega)
      refine ((p1.append p2).cons _).trans ?_
      refine List.Perm.trans List.perm_middle.symm ?_
      rw [List.get_eq_getElem, ← List.drop_eq_getElem_cons hm,
        List.take_append_drop]

theorem insSeq_perm (l : List Int) : (insSeq l).Perm l :=
  insSeqPermAux l.length l le_rfl

theorem foldl_addRecurse_perm (xs : List Int) (t : BTree) :
    (inorderRec (xs.foldl addRecurse t)).Perm (xs ++ inorderRec t) := by
  induction xs generalizing t with
  | nil => simp
  | cons x xs ih =>
    rw [List.foldl_cons]
    refine (ih (addRecurse t x)).trans ?_
    refine ((inorder_addRecurse_perm t x).append_left xs).trans ?_
    exact List.perm_middle

/-- The tree produced by the rebuild phase of `rebalance` on a given
in-order list. -/
def rebuildT (l : List Int) : BTree := (insSeq l).foldl addRecurse .leaf

theorem rebalance_root (t : LinkedBST) :
    (t.rebalance).root = rebuildT t.inorder ∧ Synced t.rebalance := by
  rw [LinkedBST.rebalance, recurs_eq_foldl]
  obtain ⟨h1, h2⟩ := foldl_add_synced (insSeq t.inorder) ⟨.leaf, 0⟩ rfl
  exact ⟨h2, h1⟩

theorem rebalance_inorder_eq (t : LinkedBST) (h : IsBST t.root) :
    (t.rebalance).inorder = t.inorder := by
  obtain ⟨hroot, -⟩ := rebalance_root t
  have hperm : ((t.rebalance).inorder).Perm t.inorder := by
    rw [LinkedBST.inorder, hroot, rebuildT]
    refine (foldl_addRecurse_perm _ _).trans ?_
    simp only [inorderRec, List.append_nil]
    exact insSeq_perm _
  refine List.eq_of_perm_of_sorted hperm ?_ (sorted_inorder h)
  rw [LinkedBST.inorder, hroot, rebuildT]
  exact sorted_inorder (IsBST_foldl_addRecurse _ trivial)

theorem foldl_addRecurse_lt {xs : List Int} {d : Int} {l r : BTree}
    (h : ∀ y ∈ xs, y < d) :
    xs.foldl addRecurse (.node l d r) = .node (xs.foldl addRecurse l) d r := by
  induction xs generalizing l with
  | nil => rfl
  | cons x xs ih =>
    rw [List.foldl_cons, List.foldl_cons,
      show addRecurse (BTree.node l d r) x = BTree.node (addRecurse l x) d r
        from by simp [addRecurse, h x (by simp)]]
    exact ih (fun y hy => h y (by simp [hy]))

theorem foldl_addRecurse_ge {xs : List Int} {d : Int} {l r : BTree}
    (h : ∀ y ∈ xs, ¬ y < d) :
    xs.foldl addRecurse (.node l d r) = .node l d (xs.foldl addRecurse r) := by
  induction xs generalizing r with
  | nil => rfl
  | cons x xs ih =>
    rw [List.foldl_cons, List.foldl_cons,
      show addRecurse (BTree.node l d r) x = BTree.node l d (addRecurse r x)
        from by simp [addRecurse, h x (by simp)]]
    exact ih (fun y hy => h y (by simp [hy]))

theorem rebuildT_cons (x : Int) (xs : List Int)
    (hs : (x :: xs).Sorted (· < ·)) :
    rebuildT (x :: xs) =
      .node (rebuildT ((x :: xs).take ((x :: xs).length / 2)))
        ((x :: xs).get ⟨(x :: xs).length / 2,
          Nat.div_lt_self (by simp) (by decide)⟩)
        (rebuildT ((x :: xs).drop ((x :: xs).length / 2 + 1))) := by
  have hm : (x :: xs).length / 2 < (x :: xs).length :=
    Nat.div_lt_self (by simp) (by decide)
  have hsplit : (x :: xs).take ((x :: xs).length / 2) ++
      (x :: xs).get ⟨(x :: xs).length / 2, hm⟩ ::
        (x :: xs).drop ((x :: xs).length / 2 + 1) = x :: xs := by
    rw [List.get_eq_getElem, ← List.drop_eq_getElem_cons hm,
      List.take_append_drop]
  have hp : ((x :: xs).take ((x :: xs).length / 2) ++
      (x :: xs).get ⟨(x :: xs).length / 2, hm⟩ ::
        (x :: xs).drop ((x :: xs).length / 2 + 1)).Pairwise (· < ·) := by
    rw [hsplit]
    exact hs
  obtain ⟨-, hmidp, hcross⟩ := List.pairwise_append.1 hp
  have hlt : ∀ y ∈ insSeq ((x :: xs).take ((x :: xs).length / 2)),
      y < (x :: xs).get ⟨(x :: xs).length / 2, hm⟩ := by
    intro y hy
    exact hcross y ((insSeq_perm _).mem_iff.1 hy) _ (List.mem_cons_self _ _)
  have hge : ∀ y ∈ insSeq ((x :: xs).drop ((x :: xs).length / 2 + 1)),
      ¬ y < (x :: xs).get ⟨(x :: xs).length / 2, hm⟩ := by
    intro y hy
    have := (List.pairwise_cons.1 hmidp).1 y ((insSeq_perm _).mem_iff.1 hy)
    omega
  rw [rebuildT]
  simp only [insSeq, List.foldl_cons, List.foldl_append]
  rw [show addRecurse BTree.leaf ((x :: xs).get ⟨(x :: xs).length / 2, hm⟩) =
      BTree.node .leaf ((x :: xs).get ⟨(x :: xs).length / 2, hm⟩) .leaf
    from rfl]
  rw [foldl_addRecurse_lt hlt, foldl_addRecurse_ge hge]
  rfl

theorem height1RebuildAux : ∀ (n : Nat) (l : List Int), l.length ≤ n →
    l.Sorted (· < ·) →
    height1 (rebuildT l) =
      if l.length = 0 then 0 else Nat.log 2 l.length + 1 := by
  intro n
  induction n with
  | zero =>
    intro l hl _
    have hnil : l = [] := List.length_eq_zero.1 (by omega)
    subst hnil
    simp [rebuildT, insSeq, height1]
  | succ n ihn =>
    intro l hl hs
    cases l with
    | nil => simp [rebuildT, insSeq, height1]
    | cons x xs =>
      have ih1 := ihn ((x :: xs).take ((x :: xs).length / 2))
        (by simp only [List.length_take, List.length_cons] at *; omega)
      have ih2 := ihn ((x :: xs).drop ((x :: xs).length / 2 + 1))
        (by simp only [List.length_drop, List.length_cons] at *; omega)
      have hm : (x :: xs).length / 2 < (x :: xs).length :=
        Nat.div_lt_self (by simp) (by decide)
      have hstake : ((x :: xs).take ((x :: xs).length / 2)).Sorted (· < ·) :=
        hs.sublist (List.take_sublist _ _)
      have hsdrop :
          ((x :: xs).drop ((x :: xs).length / 2 + 1)).Sorted (· < ·) :=
        hs.sublist (List.drop_sublist _ _)
      rw [rebuildT_cons x xs hs, height1, ih1 hstake, ih2 hsdrop]
      have hlt : (x :: xs).length = xs.length + 1 := by simp
      have htl : ((x :: xs).take ((x :: xs).length / 2)).length =
          (x :: xs).length / 2 := by
        simp [List.length_take]
        omega
      have hdl : ((x :: xs).drop ((x :: xs).length / 2 + 1)).length =
          (x :: xs).length - ((x :: xs).length / 2 + 1) := by
        simp [List.length_drop]
      rw [htl, hdl]
      by_cases h1 : xs.length = 0
      · simp [h1]
      · -- at least two elements
        have hn2 : 2 ≤ (x :: xs).length := by omega
        have hmpos : (x :: xs).length / 2 ≠ 0 := by omega
        have hdiv : Nat.log 2 ((x :: xs).length / 2) =
            Nat.log 2 (x :: xs).length - 1 := Nat.log_div_base 2 _
        have hlogpos : 0 < Nat.log 2 (x :: xs).length :=
          Nat.log_pos (by decide) hn2
        have hk : (x :: xs).length - ((x :: xs).length / 2 + 1) ≤
            (x :: xs).length / 2 := by omega
        have hmono : Nat.log 2 ((x :: xs).length - ((x :: xs).length / 2 + 1)) ≤
            Nat.log 2 ((x :: xs).length / 2) := Nat.log_mono_right hk
        rw [if_neg hmpos]
        rw [if_neg (show ¬(x :: xs).length = 0 from by omega)]
        by_cases hz : (x :: xs).length - ((x :: xs).length / 2 + 1) = 0
        · rw [if_pos hz, Nat.max_eq_left (by omega)]
          omega
        · rw [if_neg hz, Nat.max_eq_left (by omega)]
          omega

theorem height1_rebuildT (l : List Int) (hs : l.Sorted (· < ·)) :
    height1 (rebuildT l) =
      if l.length = 0 then 0 else Nat.log 2 l.length + 1 :=
  height1RebuildAux l.length l le_rfl hs

theorem countNodes_lt_pow (t : BTree) : countNodes t < 2 ^ height1 t := by
  induction t with
  | leaf => simp [countNodes, height1]
  | node l d r ihl ihr =>
    rw [countNodes, height1]
    have h1 : 2 ^ height1 l ≤ 2 ^ max (height1 l) (height1 r) :=
      Nat.pow_le_pow_right (by decide) (le_max_left _ _)
    have h2 : 2 ^ height1 r ≤ 2 ^ max (height1 l) (height1 r) :=
      Nat.pow_le_pow_right (by decide) (le_max_right _ _)
    have h3 : 2 ^ (max (height1 l) (height1 r) + 1) =
        2 ^ max (height1 l) (height1 r) * 2 := pow_succ 2 _
    omega

/-- C7 (amended): for a tree satisfying the BST invariant, `rebalance()`
preserves the exact `inorder()` sequence (hence the multiset of items), and
when the stored items are pairwise distinct the height after rebalancing
never exceeds the height before.  (With duplicate items the height bound
fails — see the counterexample.) -/
theorem rebalance_round_trip (t : LinkedBST) (h : IsBST t.root) :
    (t.rebalance).inorder = t.inorder ∧
    ((t.inorder).Nodup → (t.rebalance).height ≤ t.height) := by
  refine ⟨rebalance_inorder_eq t h, fun hnd => ?_⟩
  have hsorted : (t.inorder).Sorted (· ≤ ·) := sorted_inorder h
  have hstrict : (t.inorder).Sorted (· < ·) :=
    (hsorted.and hnd).imp (fun hy => lt_of_le_of_ne hy.1 hy.2)
  obtain ⟨hroot, -⟩ := rebalance_root t
  have hh : height1 (t.rebalance).root =
      if (t.inorder).length = 0 then 0
      else Nat.log 2 (t.inorder).length + 1 := by
    rw [hroot]
    exact height1_rebuildT _ hstrict
  have hcount : (t.inorder).length = countNodes t.root :=
    inorderRec_length t.root
  by_cases hn : (t.inorder).length = 0
  · have hleaf : t.root = .leaf := countNodes_eq_zero.1 (by omega)
    rw [LinkedBST.height, LinkedBST.height, hh, if_pos hn, hleaf]
    simp [height1]
  · rw [LinkedBST.height, LinkedBST.height, hh, if_neg hn]
    have hlt : Nat.log 2 (t.inorder).length < height1 t.root := by
      refine Nat.log_lt_of_lt_pow hn ?_
      rw [hcount]
      exact countNodes_lt_pow t.root
    push_cast
    omega

theorem rebalance_round_trip_witness :
    IsBST (⟨.node .leaf 1 .leaf, 1⟩ : LinkedBST).root ∧
    ((⟨.node .leaf 1 .leaf, 1⟩ : LinkedBST).rebalance).inorder =
      (⟨.node .leaf 1 .leaf, 1⟩ : LinkedBST).inorder ∧
    (((⟨.node .leaf 1 .leaf, 1⟩ : LinkedBST).inorder).Nodup →
      ((⟨.node .leaf 1 .leaf, 1⟩ : LinkedBST).rebalance).height ≤
        (⟨.node .leaf 1 .leaf, 1⟩ : LinkedBST).height) :=
  ⟨by decide, rebalance_round_trip _ (by decide)⟩

/-- A valid BST with items `[1, 1, 1, 2, 2]` and height 3 (not minimal:
`⌊log2 5⌋ = 2`). -/
def rebalCex : LinkedBST :=
  ⟨.node .leaf 1 (.node .leaf 1
    (.node (.node .leaf 1 .leaf) 2 (.node .leaf 2 .leaf))), 5⟩

/-- C7 (counterexample): on `rebalCex` — a BST holding `[1,1,1,2,2]` with
height 3, strictly above the minimal height `⌊log2 5⌋ = 2` — `rebalance()`
produces a chain of height 4: the rebuild routes duplicates equal to the
root to the right, so the height *increases* even though the input was not
minimal, and the claimed bound fails. -/
theorem rebalance_can_increase_height :
    IsBST rebalCex.root ∧ Synced rebalCex ∧
    rebalCex.height = 3 ∧
    (Nat.log 2 (countNodes rebalCex.root) : Int) < rebalCex.height ∧
    (rebalCex.rebalance).height = 4 ∧
    ¬ (rebalCex.rebalance).height ≤ rebalCex.height := by
  have h1 : insSeq [1, 1, 1, 2, 2] = [1, 1, 1, 2, 2] := by
    simp [insSeq]
  obtain ⟨hroot, -⟩ := rebalance_root rebalCex
  have hroot2 : (rebalCex.rebalance).root =
      .node .leaf 1 (.node .leaf 1 (.node .leaf 1
        (.node .leaf 2 (.node .leaf 2 .leaf)))) := by
    rw [hroot, show rebalCex.inorder = [1, 1, 1, 2, 2] from rfl,
      rebuildT, h1]
    rfl
  have hlog : Nat.log 2 (countNodes rebalCex.root) = 2 := by
    rw [show countNodes rebalCex.root = 5 from rfl]
    exact Nat.log_eq_of_pow_le_of_lt_pow (by norm_num) (by norm_num)
  have hh : (rebalCex.rebalance).height = 4 := by
    rw [LinkedBST.height, hroot2]
    rfl
  refine ⟨by decide, rfl, rfl, ?_, hh, ?_⟩
  · rw [hlog]
    decide
  · rw [hh]
    decide

end BinSearchTree
